import Mathlib

/-!
Verification of the blend-file container engine: a shallow embedding of the
header codec, block codec, block directory, container open/save, and the
best-effort field accessors, together with theorems about them.

Conventions of the embedding:
* Byte streams are `List Nat`, each element standing for one byte
  (well-formedness hypotheses add `< 256` bounds where a claim needs them).
* Machine integers (`u32`, `u64`) are `Nat` with explicit `% 2 ^ 32` /
  `% 2 ^ 64` where the code truncates.
* `f32` values are represented by their 32-bit little-endian bit patterns
  (a `Nat < 2 ^ 32`); the accessors only move bytes, never compute with
  floats, and `0.0` has bit pattern `0`.
* Fallible code returns `Except String`; a Rust panic is modelled as an
  `Except.error` as well.
* Readers (`std::io::Cursor`) are modelled by explicit list threading: a
  read returns the consumed bytes and the remaining stream.
-/

namespace Rbat

/-- Error-message constants (contents irrelevant to the claims). -/
def msgIo : String := "unexpected end of stream"

def msgMagic : String := "Invalid magic"

def msgPointerSize : String := "Invalid pointer size indicator"

def msgEndianness : String := "Invalid endianness indicator"

def msgVersion : String := "Invalid version"

def msgTruncated : String := "truncated block payload"

def msgFuel : String := "internal: fuel exhausted"

def msgSlice : String := "slice index out of range"

def msgNotWritable : String := "File not opened in write mode"

/-- Models `Read::read_exact` on a cursor: succeeds iff at least `n` bytes
remain, consuming exactly `n`. -/
def readBytes (n : Nat) (s : List Nat) : Option (List Nat × List Nat) :=
  if n ≤ s.length then some (s.take n, s.drop n) else none

/-- Little-endian value of a byte list. -/
def leVal (bs : List Nat) : Nat :=
  bs.foldr (fun b acc => b + 256 * acc) 0

inductive PointerSize where
  | bits32 : PointerSize
  | bits64 : PointerSize
deriving DecidableEq

/-- Models `PointerSize::bytes`. -/
def PointerSize.bytes : PointerSize → Nat
  | .bits32 => 4
  | .bits64 => 8

inductive Endianness where
  | little : Endianness
  | big : Endianness
deriving DecidableEq

/-- Value of a byte list in the given endianness (the byteorder crate's
`read_u32` / `read_u64`, applied to the bytes already read). -/
def endVal (e : Endianness) (bs : List Nat) : Nat :=
  match e with
  | .little => leVal bs
  | .big => leVal bs.reverse

/-- Little-endian encoding of the low 32 bits of `v`
(`u32::to_le_bytes`, after the implicit `as u32`). -/
def u32LeBytes (v : Nat) : List Nat :=
  [v % 256, v / 256 % 256, v / 65536 % 256, v / 16777216 % 256]

/-- Little-endian encoding of the low 64 bits of `v`. -/
def u64LeBytes (v : Nat) : List Nat :=
  [v % 256, v / 256 % 256, v / 65536 % 256, v / 16777216 % 256,
   v / 4294967296 % 256, v / 1099511627776 % 256,
   v / 281474976710656 % 256, v / 72057594037927936 % 256]

/-- Encoding of a u32 in the given endianness (`write_u32`). -/
def u32Bytes (e : Endianness) (v : Nat) : List Nat :=
  match e with
  | .little => u32LeBytes v
  | .big => (u32LeBytes v).reverse

/-- Encoding of a u64 in the given endianness (`write_u64`). -/
def u64Bytes (e : Endianness) (v : Nat) : List Nat :=
  match e with
  | .little => u64LeBytes v
  | .big => (u64LeBytes v).reverse

structure Header where
  magic : List Nat
  pointer_size : PointerSize
  endianness : Endianness
  version : Nat
deriving DecidableEq

/-- The 7 bytes of `b"BLENDER"`. -/
def blenderMagic : List Nat := [66, 76, 69, 78, 68, 69, 82]

/-- `b'_'` maps to 32-bit, `b'-'` to 64-bit, anything else is an error. -/
def parsePointerSize (b : Nat) : Option PointerSize :=
  if b = 95 then some PointerSize.bits32
  else if b = 45 then some PointerSize.bits64
  else none

/-- `b'v'` maps to little, `b'V'` to big, anything else is an error. -/
def parseEndianness (b : Nat) : Option Endianness :=
  if b = 118 then some Endianness.little
  else if b = 86 then some Endianness.big
  else none

def isAsciiDigit (b : Nat) : Bool :=
  decide (48 ≤ b ∧ b ≤ 57)

/-- Decimal value of a list of ASCII digit bytes. -/
def digitsVal (bs : List Nat) : Nat :=
  bs.foldl (fun acc b => acc * 10 + (b - 48)) 0

/-- Models `String::from_utf8_lossy(..).parse::<u32>()` on the 3 version
bytes: an optional leading `+` (byte 43), then at least one ASCII digit and
nothing else.  Bytes ≥ 128 lossy-decode to non-digit characters, so the
all-digit test is exactly the success condition; 3 digits never overflow
a u32. -/
def parseVersion (bs : List Nat) : Option Nat :=
  let digits := if bs.head? = some 43 then bs.tail else bs
  if digits ≠ [] ∧ digits.all isAsciiDigit then some (digitsVal digits)
  else none

/-- Models `Header::from_reader`: magic, pointer-size sentinel, endianness
sentinel, 3 ASCII-decimal version bytes; returns the header and the
unconsumed remainder of the stream. -/
def Header.from_reader (s : List Nat) : Except String (Header × List Nat) :=
  match readBytes 7 s with
  | none => .error msgIo
  | some (magic, r1) =>
    if magic ≠ blenderMagic then .error msgMagic
    else
      match readBytes 1 r1 with
      | none => .error msgIo
      | some (psb, r2) =>
        match parsePointerSize (psb.headD 0) with
        | none => .error msgPointerSize
        | some ps =>
          match readBytes 1 r2 with
          | none => .error msgIo
          | some (eb, r3) =>
            match parseEndianness (eb.headD 0) with
            | none => .error msgEndianness
            | some e =>
              match readBytes 3 r3 with
              | none => .error msgIo
              | some (vb, r4) =>
                match parseVersion vb with
                | none => .error msgVersion
                | some v => .ok (⟨magic, ps, e, v⟩, r4)

/-- Decimal digit bytes of `v` (fuel-based so it reduces by `rfl`). -/
def digitsAux : Nat → Nat → List Nat
  | 0, _ => []
  | fuel + 1, v =>
    if v < 10 then [48 + v]
    else digitsAux fuel (v / 10) ++ [48 + v % 10]

def decimalDigits (v : Nat) : List Nat := digitsAux (v + 1) v

/-- Zero-pad a digit string on the left to width 3 (`format "{:03}"`). -/
def pad3 (ds : List Nat) : List Nat :=
  List.replicate (3 - ds.length) 48 ++ ds

/-- Models `Header::write_to_writer`: magic bytes, the two sentinel bytes,
then the version as a zero-padded 3-digit decimal string. -/
def Header.write_to_writer (h : Header) : List Nat :=
  h.magic ++
    [match h.pointer_size with | .bits32 => 95 | .bits64 => 45] ++
    [match h.endianness with | .little => 118 | .big => 86] ++
    pad3 (decimalDigits h.version)

structure Block where
  code : List Nat
  size : Nat
  old_memory_address : Nat
  sdna_index : Nat
  count : Nat
  data_offset : Nat
  data : List Nat
deriving DecidableEq

/-- The 4 bytes of the reserved terminator tag `b"DNA1"`. -/
def dna1Code : List Nat := [68, 78, 65, 49]

/-- The tagged result of parsing one block (`Result<Option<Block>>`):
`block` is `Ok(Some(..))` with the remaining stream and new stream
position, `done` is `Ok(None)`, `failed` is `Err(..)`. -/
inductive BlockResult where
  | block : Block → List Nat → Nat → BlockResult
  | done : BlockResult
  | failed : String → BlockResult
deriving DecidableEq

/-- Models `Block::from_reader` at stream position `pos`: type code (EOF
before 4 bytes means `done`; the terminator tag means `done`), then size,
legacy address (width per header), catalog index, element count, and
exactly `size` payload bytes (a short read is a hard failure). -/
def Block.from_reader (hd : Header) (s : List Nat) (pos : Nat) : BlockResult :=
  match readBytes 4 s with
  | none => .done
  | some (code, r1) =>
    if code = dna1Code then .done
    else
      match readBytes 4 r1 with
      | none => .failed msgIo
      | some (szb, r2) =>
        match readBytes hd.pointer_size.bytes r2 with
        | none => .failed msgIo
        | some (ab, r3) =>
          match readBytes 4 r3 with
          | none => .failed msgIo
          | some (sb, r4) =>
            match readBytes 4 r4 with
            | none => .failed msgIo
            | some (cb, r5) =>
              match readBytes (endVal hd.endianness szb) r5 with
              | none => .failed msgTruncated
              | some (payload, r6) =>
                .block
                  ⟨code, endVal hd.endianness szb, endVal hd.endianness ab,
                   endVal hd.endianness sb, endVal hd.endianness cb,
                   pos + 16 + hd.pointer_size.bytes + endVal hd.endianness szb,
                   payload⟩
                  r6
                  (pos + 16 + hd.pointer_size.bytes + endVal hd.endianness szb)

/-- Models `Block::write_to_writer`: code, size, legacy address (cast to
u32 under a 32-bit header), catalog index, element count, payload. -/
def Block.write_to_writer (b : Block) (hd : Header) : List Nat :=
  b.code ++ u32Bytes hd.endianness b.size ++
    (match hd.pointer_size with
     | .bits32 => u32Bytes hd.endianness b.old_memory_address
     | .bits64 => u64Bytes hd.endianness b.old_memory_address) ++
    u32Bytes hd.endianness b.sdna_index ++
    u32Bytes hd.endianness b.count ++
    b.data

/-- The block-directory loop (`BlockIterator` driven by `open`), with fuel
for structural recursion; a block always consumes at least one byte, so
`s.length + 1` fuel (as supplied by `parseBlocks`) never runs out. -/
def parseBlocksF (hd : Header) : Nat → List Nat → Nat → Except String (List Block)
  | 0, _, _ => .error msgFuel
  | fuel + 1, s, pos =>
    match Block.from_reader hd s pos with
    | .done => .ok []
    | .failed m => .error m
    | .block b rest p =>
      match parseBlocksF hd fuel rest p with
      | .ok bs => .ok (b :: bs)
      | .error m => .error m

/-- Builds the Block Directory: repeatedly parse blocks until `done`,
propagating the first error. -/
def parseBlocks (hd : Header) (s : List Nat) (pos : Nat) : Except String (List Block) :=
  parseBlocksF hd (s.length + 1) s pos

structure DnaField where
  name : String
  type_name : String
  offset : Nat
  size : Nat
deriving DecidableEq

structure DnaStruct where
  name : String
  fields : List DnaField
  size : Nat
deriving DecidableEq

/-- The struct catalog (`Dna`), with its two maps modelled as association
lists. -/
structure Dna where
  structs : List (String × DnaStruct)
  type_sizes : List (String × Nat)
deriving DecidableEq

/-- Models `Dna::from_reader` (src/dna.rs): the stub ignores the reader and
the header entirely and returns an empty catalog. -/
def Dna.from_reader (_s : List Nat) (_hd : Header) : Except String Dna :=
  .ok ⟨[], []⟩

/-- Models the parse path shared by `BlendFile::open` and
`BlendFile::open_read_write` on the decompressed buffer: header, then the
block directory (positions counted from the start of the buffer), then the
catalog parse over a fresh cursor on the same buffer. -/
def parseContainer (data : List Nat) : Except String (Header × List Block × Dna) :=
  match Header.from_reader data with
  | .error m => .error m
  | .ok (hd, rest) =>
    match parseBlocks hd rest 12 with
    | .error m => .error m
    | .ok blocks =>
      match Dna.from_reader data hd with
      | .error m => .error m
      | .ok dna => .ok (hd, blocks, dna)

/-- Models `BlendFile::decompress_if_needed`, parameterized by the three
external decoders (flate2 zlib, zstd, flate2 gzip), each a function from
the whole file's bytes to a decode result: read the first 4 bytes
(erroring on a shorter file), classify by magic, run the matching decoder
from the start of the file, or return the raw bytes unchanged. -/
def decompress_if_needed (zlibDec zstdDec gzDec : List Nat → Except String (List Nat))
    (bytes : List Nat) : Except String (List Nat) :=
  if bytes.length < 4 then .error msgIo
  else if bytes.take 2 = [120, 156] ∨ bytes.take 2 = [120, 1] ∨
      bytes.take 2 = [120, 218] then zlibDec bytes
  else if bytes.take 4 = [40, 181, 47, 253] then zstdDec bytes
  else if bytes.take 4 = [31, 139, 8, 0] then gzDec bytes
  else .ok bytes

/-- Models `BlendFile::open` (and the identical parse path of
`open_read_write`) on a file's bytes: decompress if needed, then parse the
container from the single decompressed buffer. -/
def openContainer (zlibDec zstdDec gzDec : List Nat → Except String (List Nat))
    (bytes : List Nat) : Except String (Header × List Block × Dna) :=
  match decompress_if_needed zlibDec zstdDec gzDec bytes with
  | .error m => .error m
  | .ok data => parseContainer data

/-- Models `BlendFile::save`, parameterized by the catalog serializer
(`Dna::write_to_writer` lives in the blend_file_reader crate's dna module,
which is not under src/; it can only be a function of the `Dna` value, the
struct's sole contents, so it is abstracted as `dnaSer`): on a writable
container, serialize the header, every block in directory order, then the
catalog, and replace the file contents with that buffer; otherwise fail. -/
def BlendFile.save (dnaSer : Dna → List Nat) (hd : Header) (blocks : List Block)
    (dna : Dna) (writable : Bool) : Except String (List Nat) :=
  if writable then
    .ok (Header.write_to_writer hd ++
      (blocks.map (fun b => Block.write_to_writer b hd)).flatten ++
      dnaSer dna)
  else .error msgNotWritable

/-- Models `BlendFile::get_blocks_by_type` (both the read-only crate's
`Result`-returning version and its `_mut` twin filter with the same
predicate): keep the blocks whose code starts with the given prefix.  The
Rust predicate slices `&b.code[..code.len()]`, which panics when the
prefix is longer than the 4-byte code array; the panic is modelled as an
`Except.error` raised at the first block inspected. -/
def get_blocks_by_type : List Block → List Nat → Except String (List Block)
  | [], _ => .ok []
  | b :: rest, code =>
    if code.length ≤ b.code.length then
      match get_blocks_by_type rest code with
      | .ok l => .ok (if b.code.take code.length = code then b :: l else l)
      | .error m => .error m
    else .error msgSlice

/-- Models `Block::get_string_field`: the field name is unused; return the
payload bytes before the first NUL (the whole payload if none), which the
source then lossily decodes to a `String`. -/
def Block.get_string_field (b : Block) (_field_name : String) : List Nat :=
  b.data.takeWhile (fun x => x != 0)

/-- Models `Block::set_string_field`: the field name is unused; copy the
value's bytes over the start of the payload, truncated to fit, and write a
NUL terminator after them if a byte of room remains. -/
def Block.set_string_field (b : Block) (_field_name : String) (value : List Nat) : Block :=
  let len := min value.length b.data.length
  let d1 := value.take len ++ b.data.drop len
  { b with data := if len < b.data.length then d1.set len 0 else d1 }

/-- Models `Block::get_float_array_field` with floats as little-endian bit
patterns: read `count` consecutive 4-byte slots from payload offset 0,
substituting `0.0` (bit pattern 0) for a slot extending past the payload. -/
def Block.get_float_array_field (b : Block) (_field_name : String) (count : Nat) : List Nat :=
  (List.range count).map fun i =>
    if i * 4 + 4 ≤ b.data.length then leVal ((b.data.drop (i * 4)).take 4)
    else 0

/-- The write loop of `set_float_array_field`: write each value's 4
little-endian bytes at its slot, silently skipping any slot extending past
the payload. -/
def writeSlots (data : List Nat) : List Nat → Nat → List Nat
  | [], _ => data
  | v :: vs, i =>
    writeSlots
      (if i * 4 + 4 ≤ data.length then
        data.take (i * 4) ++ u32LeBytes v ++ data.drop (i * 4 + 4)
      else data)
      vs (i + 1)

/-- Models `Block::set_float_array_field` with floats as little-endian bit
patterns: the field name is unused. -/
def Block.set_float_array_field (b : Block) (_field_name : String) (values : List Nat) : Block :=
  { b with data := writeSlots b.data values 0 }

/-! ### Helper lemmas about the byte-level codecs -/

theorem readBytes_eq_some {n : Nat} {s a r : List Nat}
    (h : readBytes n s = some (a, r)) :
    a = s.take n ∧ r = s.drop n ∧ n ≤ s.length := by
  unfold readBytes at h
  split at h
  · rename_i hle
    injection h with h
    injection h with h1 h2
    exact ⟨h1.symm, h2.symm, hle⟩
  · exact absurd h (by simp)

theorem readBytes_eq_none {n : Nat} {s : List Nat}
    (h : readBytes n s = none) : s.length < n := by
  unfold readBytes at h
  split at h
  · exact absurd h (by simp)
  · omega

theorem readBytes_of_le {n : Nat} {s : List Nat} (h : n ≤ s.length) :
    readBytes n s = some (s.take n, s.drop n) := by
  unfold readBytes
  simp [h]

theorem readBytes_exact_append {n : Nat} {xs ys : List Nat}
    (h : xs.length = n) : readBytes n (xs ++ ys) = some (xs, ys) := by
  unfold readBytes
  rw [if_pos (by simp [h.symm])]
  subst h
  simp

theorem u32LeBytes_length (v : Nat) : (u32LeBytes v).length = 4 := rfl

theorem u64LeBytes_length (v : Nat) : (u64LeBytes v).length = 8 := rfl

theorem u32Bytes_length (e : Endianness) (v : Nat) : (u32Bytes e v).length = 4 := by
  cases e <;> simp [u32Bytes, u32LeBytes]

theorem u64Bytes_length (e : Endianness) (v : Nat) : (u64Bytes e v).length = 8 := by
  cases e <;> simp [u64Bytes, u64LeBytes]

theorem leVal_u32LeBytes (v : Nat) : leVal (u32LeBytes v) = v % 2 ^ 32 := by
  simp only [u32LeBytes, leVal, List.foldr]
  omega

theorem leVal_u64LeBytes (v : Nat) : leVal (u64LeBytes v) = v % 2 ^ 64 := by
  simp only [u64LeBytes, leVal, List.foldr]
  omega

theorem endVal_u32Bytes (e : Endianness) (v : Nat) :
    endVal e (u32Bytes e v) = v % 2 ^ 32 := by
  cases e <;>
    simp [endVal, u32Bytes, leVal_u32LeBytes, List.reverse_reverse]

theorem endVal_u64Bytes (e : Endianness) (v : Nat) :
    endVal e (u64Bytes e v) = v % 2 ^ 64 := by
  cases e <;>
    simp [endVal, u64Bytes, leVal_u64LeBytes, List.reverse_reverse]

theorem u32LeBytes_mod (v : Nat) : u32LeBytes (v % 2 ^ 32) = u32LeBytes v := by
  simp only [u32LeBytes]
  have h1 : v % 2 ^ 32 % 256 = v % 256 := by omega
  have h2 : v % 2 ^ 32 / 256 % 256 = v / 256 % 256 := by omega
  have h3 : v % 2 ^ 32 / 65536 % 256 = v / 65536 % 256 := by omega
  have h4 : v % 2 ^ 32 / 16777216 % 256 = v / 16777216 % 256 := by omega
  rw [h1, h2, h3, h4]

theorem u64LeBytes_mod (v : Nat) : u64LeBytes (v % 2 ^ 64) = u64LeBytes v := by
  simp only [u64LeBytes]
  have h1 : v % 2 ^ 64 % 256 = v % 256 := by omega
  have h2 : v % 2 ^ 64 / 256 % 256 = v / 256 % 256 := by omega
  have h3 : v % 2 ^ 64 / 65536 % 256 = v / 65536 % 256 := by omega
  have h4 : v % 2 ^ 64 / 16777216 % 256 = v / 16777216 % 256 := by omega
  have h5 : v % 2 ^ 64 / 4294967296 % 256 = v / 4294967296 % 256 := by omega
  have h6 : v % 2 ^ 64 / 1099511627776 % 256 = v / 1099511627776 % 256 := by omega
  have h7 : v % 2 ^ 64 / 281474976710656 % 256 = v / 281474976710656 % 256 := by
    omega
  have h8 : v % 2 ^ 64 / 72057594037927936 % 256 =
      v / 72057594037927936 % 256 := by omega
  rw [h1, h2, h3, h4, h5, h6, h7, h8]

theorem u32Bytes_mod (e : Endianness) (v : Nat) :
    u32Bytes e (v % 2 ^ 32) = u32Bytes e v := by
  cases e <;> simp only [u32Bytes, u32LeBytes_mod]

theorem u64Bytes_mod (e : Endianness) (v : Nat) :
    u64Bytes e (v % 2 ^ 64) = u64Bytes e v := by
  cases e <;> simp only [u64Bytes, u64LeBytes_mod]

/-! ### Lemmas about the block codec -/

/-- A well-formed in-memory block: a stream position where it is serialized
is a genuine byte stream of one block record. -/
def wfBlock (b : Block) : Prop :=
  b.code.length = 4 ∧ (∀ x ∈ b.code, x < 256) ∧ b.code ≠ dna1Code ∧
  b.data.length = b.size ∧ b.size < 2 ^ 32 ∧ (∀ x ∈ b.data, x < 256) ∧
  b.sdna_index < 2 ^ 32 ∧ b.count < 2 ^ 32 ∧ b.old_memory_address < 2 ^ 64

instance (b : Block) : Decidable (wfBlock b) := by
  unfold wfBlock
  infer_instance

/-- Byte length of a block's fixed prologue under a header. -/
def prologueLen (hd : Header) : Nat := 16 + hd.pointer_size.bytes

/-- The payload size a stream declares for the block starting at its
first byte. -/
def declaredSize (hd : Header) (s : List Nat) : Nat :=
  endVal hd.endianness ((s.drop 4).take 4)

/-- The on-disk bytes of the Block Directory's blocks, in order. -/
def serializeBlocks (hd : Header) (bs : List Block) : List Nat :=
  (bs.map (fun b => Block.write_to_writer b hd)).flatten

theorem from_reader_nil (hd : Header) (pos : Nat) :
    Block.from_reader hd [] pos = .done := rfl

theorem readBytes_u32 (e : Endianness) (v : Nat) (ys : List Nat) :
    readBytes 4 (u32Bytes e v ++ ys) = some (u32Bytes e v, ys) :=
  readBytes_exact_append (u32Bytes_length e v)

theorem readBytes_u64 (e : Endianness) (v : Nat) (ys : List Nat) :
    readBytes 8 (u64Bytes e v ++ ys) = some (u64Bytes e v, ys) :=
  readBytes_exact_append (u64Bytes_length e v)

/-- The block as reparsing leaves it: the legacy address truncated to the
header's width and the end offset recomputed; all other fields as written. -/
def reparsedBlock (hd : Header) (b : Block) (pos : Nat) : Block :=
  { code := b.code, size := b.size,
    old_memory_address :=
      match hd.pointer_size with
      | .bits32 => b.old_memory_address % 2 ^ 32
      | .bits64 => b.old_memory_address % 2 ^ 64,
    sdna_index := b.sdna_index, count := b.count,
    data_offset := pos + 16 + hd.pointer_size.bytes + b.size,
    data := b.data }

/-- Parsing a serialized well-formed block from the front of a stream
returns that block (with the legacy address truncated to the header's
width and the end offset recomputed) and consumes exactly its bytes. -/
theorem from_reader_append (hd : Header) (b : Block) (t : List Nat) (pos : Nat)
    (hc : b.code.length = 4) (hcd : ¬ b.code = dna1Code)
    (hdl : b.data.length = b.size) (hszlt : b.size < 2 ^ 32)
    (hsd : b.sdna_index < 2 ^ 32) (hct : b.count < 2 ^ 32) :
    Block.from_reader hd (Block.write_to_writer b hd ++ t) pos =
      BlockResult.block (reparsedBlock hd b pos) t
        (pos + 16 + hd.pointer_size.bytes + b.size) := by
  obtain ⟨m, ps, e, ver⟩ := hd
  cases ps <;>
    simp only [Block.write_to_writer, List.append_assoc, Block.from_reader,
      reparsedBlock, PointerSize.bytes, readBytes_exact_append hc, if_neg hcd,
      readBytes_u32, readBytes_u64, endVal_u32Bytes, endVal_u64Bytes,
      Nat.mod_eq_of_lt hszlt, Nat.mod_eq_of_lt hsd, Nat.mod_eq_of_lt hct,
      readBytes_exact_append hdl]

/-- Reparsing does not change a block's serialized form: the only field
the codec truncates (the legacy address) is re-encoded identically. -/
theorem write_reparsed (hd : Header) (b : Block) (pos : Nat) :
    Block.write_to_writer (reparsedBlock hd b pos) hd =
      Block.write_to_writer b hd := by
  obtain ⟨m, ps, e, ver⟩ := hd
  cases ps <;>
    simp only [Block.write_to_writer, reparsedBlock, u32Bytes_mod, u64Bytes_mod]

/-- Inversion for a successfully parsed block: its payload has exactly
its declared size and it never carries the terminator code. -/
theorem from_reader_block_inv {hd : Header} {s : List Nat} {pos : Nat}
    {b : Block} {rest : List Nat} {p : Nat}
    (h : Block.from_reader hd s pos = .block b rest p) :
    b.data.length = b.size ∧ b.code ≠ dna1Code := by
  unfold Block.from_reader at h
  cases h1 : readBytes 4 s with
  | none => simp only [h1] at h; exact absurd h (by simp)
  | some pr1 =>
    obtain ⟨code, r1⟩ := pr1
    simp only [h1] at h
    by_cases hdna : code = dna1Code
    · simp only [if_pos hdna] at h
      exact absurd h (by simp)
    simp only [if_neg hdna] at h
    cases h2 : readBytes 4 r1 with
    | none => simp only [h2] at h; exact absurd h (by simp)
    | some pr2 =>
      obtain ⟨szb, r2⟩ := pr2
      simp only [h2] at h
      cases h3 : readBytes hd.pointer_size.bytes r2 with
      | none => simp only [h3] at h; exact absurd h (by simp)
      | some pr3 =>
        obtain ⟨ab, r3⟩ := pr3
        simp only [h3] at h
        cases h4 : readBytes 4 r3 with
        | none => simp only [h4] at h; exact absurd h (by simp)
        | some pr4 =>
          obtain ⟨sb, r4⟩ := pr4
          simp only [h4] at h
          cases h5 : readBytes 4 r4 with
          | none => simp only [h5] at h; exact absurd h (by simp)
          | some pr5 =>
            obtain ⟨cb, r5⟩ := pr5
            simp only [h5] at h
            cases h6 : readBytes (endVal hd.endianness szb) r5 with
            | none => simp only [h6] at h; exact absurd h (by simp)
            | some pr6 =>
              obtain ⟨payload, r6⟩ := pr6
              simp only [h6] at h
              obtain ⟨hb, -, -⟩ := by
                simpa only [BlockResult.block.injEq] using h
              obtain ⟨hpay, -, hle⟩ := readBytes_eq_some h6
              subst hb
              constructor
              · simp only [hpay, List.length_take]
                omega
              · exact hdna

/-- `Block::from_reader` signals "no more blocks" in exactly two
situations: fewer than 4 bytes remain at the type-code read, or the 4
bytes read are the reserved terminator tag. -/
theorem from_reader_done_iff (hd : Header) (s : List Nat) (pos : Nat) :
    Block.from_reader hd s pos = .done ↔
      s.length < 4 ∨ s.take 4 = dna1Code := by
  constructor
  · intro h
    by_cases hl : s.length < 4
    · exact Or.inl hl
    by_cases hc : s.take 4 = dna1Code
    · exact Or.inr hc
    exfalso
    unfold Block.from_reader at h
    simp only [readBytes_of_le (show (4 : Nat) ≤ s.length by omega),
      if_neg hc] at h
    repeat' split at h
    all_goals simp at h
  · intro h
    rcases h with h | h
    · have : readBytes 4 s = none := by
        unfold readBytes
        rw [if_neg (by omega)]
      unfold Block.from_reader
      rw [this]
    · have hlen : 4 ≤ s.length := by
        have := congrArg List.length h
        simp [dna1Code] at this
        omega
      unfold Block.from_reader
      rw [readBytes_of_le hlen]
      simp only [if_pos h]

/-- A stream whose first block declares a payload larger than what remains
after its prologue makes `Block::from_reader` fail hard. -/
theorem from_reader_truncated (hd : Header) (s : List Nat) (pos : Nat)
    (hpl : prologueLen hd ≤ s.length) (hcd : s.take 4 ≠ dna1Code)
    (hbig : s.length - prologueLen hd < declaredSize hd s) :
    Block.from_reader hd s pos = .failed msgTruncated := by
  obtain ⟨m, ps, e, ver⟩ := hd
  simp only [prologueLen, PointerSize.bytes] at hpl hbig
  simp only [declaredSize] at hbig
  cases ps
  · have hnone : readBytes (endVal e ((s.drop 4).take 4)) (s.drop 20) = none := by
      unfold readBytes
      rw [if_neg]
      simp only [List.length_drop]
      simp only [PointerSize.bytes] at hpl hbig
      omega
    simp only [Block.from_reader, PointerSize.bytes,
      readBytes_of_le (show (4 : Nat) ≤ s.length by
        simp only [PointerSize.bytes] at hpl; omega),
      if_neg hcd,
      readBytes_of_le (show (4 : Nat) ≤ (s.drop 4).length by
        simp only [PointerSize.bytes] at hpl; simp; omega),
      List.drop_drop,
      readBytes_of_le (show (4 : Nat) ≤ (s.drop 8).length by
        simp only [PointerSize.bytes] at hpl; simp; omega),
      readBytes_of_le (show (4 : Nat) ≤ (s.drop 12).length by
        simp only [PointerSize.bytes] at hpl; simp; omega),
      readBytes_of_le (show (4 : Nat) ≤ (s.drop 16).length by
        simp only [PointerSize.bytes] at hpl; simp; omega),
      hnone]
  · have hnone : readBytes (endVal e ((s.drop 4).take 4)) (s.drop 24) = none := by
      unfold readBytes
      rw [if_neg]
      simp only [List.length_drop]
      simp only [PointerSize.bytes] at hpl hbig
      omega
    simp only [Block.from_reader, PointerSize.bytes,
      readBytes_of_le (show (4 : Nat) ≤ s.length by
        simp only [PointerSize.bytes] at hpl; omega),
      if_neg hcd,
      readBytes_of_le (show (4 : Nat) ≤ (s.drop 4).length by
        simp only [PointerSize.bytes] at hpl; simp; omega),
      List.drop_drop,
      readBytes_of_le (show (8 : Nat) ≤ (s.drop 8).length by
        simp only [PointerSize.bytes] at hpl; simp; omega),
      readBytes_of_le (show (4 : Nat) ≤ (s.drop 16).length by
        simp only [PointerSize.bytes] at hpl; simp; omega),
      readBytes_of_le (show (4 : Nat) ≤ (s.drop 20).length by
        simp only [PointerSize.bytes] at hpl; simp; omega),
      hnone]

/-! ### Lemmas about the block directory loop -/

/-- Every block in a successfully built directory has a payload of exactly
its declared size and a code different from the terminator tag. -/
theorem parseBlocksF_ok_inv (hd : Header) :
    ∀ (fuel : Nat) (s : List Nat) (pos : Nat) (bs : List Block),
      parseBlocksF hd fuel s pos = .ok bs →
      ∀ b ∈ bs, b.data.length = b.size ∧ b.code ≠ dna1Code := by
  intro fuel
  induction fuel with
  | zero =>
    intro s pos bs h
    exact absurd h (by simp [parseBlocksF])
  | succ f ih =>
    intro s pos bs h
    simp only [parseBlocksF] at h
    cases hfr : Block.from_reader hd s pos with
    | done =>
      simp only [hfr] at h
      obtain rfl : ([] : List Block) = bs := by simpa using h
      intro b hb
      simp at hb
    | failed m =>
      simp only [hfr] at h
      exact absurd h (by simp)
    | block b0 rest p =>
      simp only [hfr] at h
      cases hrec : parseBlocksF hd f rest p with
      | error m =>
        simp only [hrec] at h
        exact absurd h (by simp)
      | ok bs0 =>
        simp only [hrec] at h
        obtain rfl : b0 :: bs0 = bs := by simpa using h
        intro b hb
        rcases List.mem_cons.mp hb with rfl | hb
        · exact from_reader_block_inv hfr
        · exact ih rest p bs0 hrec b hb

theorem write_length_ge (hd : Header) (b : Block) (hc : b.code.length = 4) :
    4 ≤ (Block.write_to_writer b hd).length := by
  simp [Block.write_to_writer, hc]

/-- The parse loop, run on the serialization of a list of well-formed
blocks with sufficient fuel, succeeds and returns blocks with the same
serialization. -/
theorem parseBlocksF_serialize (hd : Header) :
    ∀ (bs : List Block) (fuel pos : Nat), (∀ b ∈ bs, wfBlock b) →
      (serializeBlocks hd bs).length < fuel →
      ∃ bs', parseBlocksF hd fuel (serializeBlocks hd bs) pos = .ok bs' ∧
        serializeBlocks hd bs' = serializeBlocks hd bs := by
  intro bs
  induction bs with
  | nil =>
    intro fuel pos _ hfuel
    cases fuel with
    | zero => simp at hfuel
    | succ f =>
      refine ⟨[], ?_, rfl⟩
      simp only [serializeBlocks, List.map_nil, List.flatten_nil,
        parseBlocksF, from_reader_nil]
  | cons b tl ih =>
    intro fuel pos hwf hfuel
    obtain ⟨hc, hcb, hcd, hdl, hszlt, hdb, hsd, hct, haddr⟩ := hwf b (by simp)
    have hser : serializeBlocks hd (b :: tl) =
        Block.write_to_writer b hd ++ serializeBlocks hd tl := by
      simp [serializeBlocks]
    cases fuel with
    | zero => simp at hfuel
    | succ f =>
      have hw4 : 4 ≤ (Block.write_to_writer b hd).length := write_length_ge hd b hc
      have hlt : (serializeBlocks hd tl).length < f := by
        rw [hser] at hfuel
        simp only [List.length_append] at hfuel
        omega
      obtain ⟨bs', hrec, hserbs⟩ :=
        ih f (pos + 16 + hd.pointer_size.bytes + b.size)
          (fun x hx => hwf x (List.mem_cons_of_mem b hx)) hlt
      have hfr := from_reader_append hd b (serializeBlocks hd tl) pos
        hc hcd hdl hszlt hsd hct
      refine ⟨reparsedBlock hd b pos :: bs', ?_, ?_⟩
      · rw [hser]
        simp only [parseBlocksF, hfr, hrec]
      · simp only [serializeBlocks, List.map_cons, List.flatten_cons] at hserbs ⊢
        rw [write_reparsed, hserbs]

/-- C2 statement core: parse-then-serialize over the whole directory. -/
theorem parseBlocks_serialize (hd : Header) (bs : List Block) (pos : Nat)
    (hwf : ∀ b ∈ bs, wfBlock b) :
    ∃ bs', parseBlocks hd (serializeBlocks hd bs) pos = .ok bs' ∧
      serializeBlocks hd bs' = serializeBlocks hd bs :=
  parseBlocksF_serialize hd bs ((serializeBlocks hd bs).length + 1) pos hwf
    (by omega)

/-- Building the directory from a stream whose first block is truncated
fails hard. -/
theorem parseBlocks_truncated (hd : Header) (s : List Nat) (pos : Nat)
    (hpl : prologueLen hd ≤ s.length) (hcd : s.take 4 ≠ dna1Code)
    (hbig : s.length - prologueLen hd < declaredSize hd s) :
    parseBlocks hd s pos = .error msgTruncated := by
  unfold parseBlocks
  simp only [parseBlocksF, from_reader_truncated hd s pos hpl hcd hbig]

/-! ### Lemmas about the header codec -/

/-- Rendering the decimal value of three digit bytes back through the
zero-padded 3-wide formatter reproduces the three bytes. -/
theorem pad3_digits_all :
    ∀ a, a < 10 → ∀ b, b < 10 → ∀ c, c < 10 →
      pad3 (decimalDigits (digitsVal [48 + a, 48 + b, 48 + c])) =
        [48 + a, 48 + b, 48 + c] := by decide

/-- Rendering the decimal value of three ASCII digit bytes reproduces
them. -/
theorem pad3_digits (a b c : Nat) (ha : isAsciiDigit a) (hb : isAsciiDigit b)
    (hc : isAsciiDigit c) :
    pad3 (decimalDigits (digitsVal [a, b, c])) = [a, b, c] := by
  simp only [isAsciiDigit, decide_eq_true_eq] at ha hb hc
  have h := pad3_digits_all (a - 48) (by omega) (b - 48) (by omega)
    (c - 48) (by omega)
  have e1 : 48 + (a - 48) = a := by omega
  have e2 : 48 + (b - 48) = b := by omega
  have e3 : 48 + (c - 48) = c := by omega
  rw [e1, e2, e3] at h
  exact h

theorem parsePointerSize_bits32 {a : Nat}
    (h : parsePointerSize a = some PointerSize.bits32) : a = 95 := by
  unfold parsePointerSize at h
  split at h
  · assumption
  split at h
  · simp at h
  · simp at h

theorem parsePointerSize_bits64 {a : Nat}
    (h : parsePointerSize a = some PointerSize.bits64) : a = 45 := by
  unfold parsePointerSize at h
  split at h
  · simp at h
  split at h
  · assumption
  · simp at h

theorem parseEndianness_little {a : Nat}
    (h : parseEndianness a = some Endianness.little) : a = 118 := by
  unfold parseEndianness at h
  split at h
  · assumption
  split at h
  · simp at h
  · simp at h

theorem parseEndianness_big {a : Nat}
    (h : parseEndianness a = some Endianness.big) : a = 86 := by
  unfold parseEndianness at h
  split at h
  · simp at h
  split at h
  · assumption
  · simp at h

/-- Serializing a parsed 12-byte header whose version field is all ASCII
digits reproduces the input bytes. -/
theorem header_roundtrip_digits (s : List Nat) (hd : Header) (rest : List Nat)
    (hlen : s.length = 12)
    (hpar : Header.from_reader s = .ok (hd, rest))
    (hdig : ∀ x ∈ s.drop 9, isAsciiDigit x) :
    Header.write_to_writer hd = s ∧ rest = [] := by
  rcases s with _ | ⟨a0, s⟩; · simp at hlen
  rcases s with _ | ⟨a1, s⟩; · simp at hlen
  rcases s with _ | ⟨a2, s⟩; · simp at hlen
  rcases s with _ | ⟨a3, s⟩; · simp at hlen
  rcases s with _ | ⟨a4, s⟩; · simp at hlen
  rcases s with _ | ⟨a5, s⟩; · simp at hlen
  rcases s with _ | ⟨a6, s⟩; · simp at hlen
  rcases s with _ | ⟨a7, s⟩; · simp at hlen
  rcases s with _ | ⟨a8, s⟩; · simp at hlen
  rcases s with _ | ⟨a9, s⟩; · simp at hlen
  rcases s with _ | ⟨a10, s⟩; · simp at hlen
  rcases s with _ | ⟨a11, s⟩; · simp at hlen
  have hs : s = [] := by
    simp only [List.length_cons] at hlen
    have : s.length = 0 := by omega
    exact List.length_eq_zero.mp this
  subst hs
  have hd9 : isAsciiDigit a9 := hdig a9 (by simp)
  have hd10 : isAsciiDigit a10 := hdig a10 (by simp)
  have hd11 : isAsciiDigit a11 := hdig a11 (by simp)
  have h9ne : a9 ≠ 43 := by
    simp only [isAsciiDigit, decide_eq_true_eq] at hd9
    omega
  have hver : parseVersion [a9, a10, a11] = some (digitsVal [a9, a10, a11]) := by
    simp [parseVersion, h9ne, hd9, hd10, hd11]
  simp only [Header.from_reader, readBytes, List.length_cons] at hpar
  norm_num at hpar
  rw [hver] at hpar
  split at hpar
  · rename_i hmg
    rcases h7 : parsePointerSize a7 with _ | ps7
    · rw [h7] at hpar
      exact absurd hpar (by simp)
    rw [h7] at hpar
    rcases h8 : parseEndianness a8 with _ | e8
    · rw [h8] at hpar
      exact absurd hpar (by simp)
    rw [h8] at hpar
    simp only [Except.ok.injEq, Prod.mk.injEq] at hpar
    obtain ⟨hhd, hrest⟩ := hpar
    subst hrest
    refine ⟨?_, rfl⟩
    rw [← hhd]
    simp only [Header.write_to_writer]
    rw [pad3_digits a9 a10 a11 hd9 hd10 hd11, hmg]
    simp only [blenderMagic, List.cons.injEq, and_true] at hmg
    obtain ⟨e0, e1, e2, e3, e4, e5, e6⟩ := hmg
    subst e0 e1 e2 e3 e4 e5 e6
    cases ps7 <;> cases e8
    · obtain rfl := parsePointerSize_bits32 h7
      obtain rfl := parseEndianness_little h8
      simp [blenderMagic]
    · obtain rfl := parsePointerSize_bits32 h7
      obtain rfl := parseEndianness_big h8
      simp [blenderMagic]
    · obtain rfl := parsePointerSize_bits64 h7
      obtain rfl := parseEndianness_little h8
      simp [blenderMagic]
    · obtain rfl := parsePointerSize_bits64 h7
      obtain rfl := parseEndianness_big h8
      simp [blenderMagic]
  · exact absurd hpar (by simp)

/-! ### Lemmas about the field accessors -/

theorem writeSlots_length : ∀ (vals : List Nat) (i0 : Nat) (data : List Nat),
    (writeSlots data vals i0).length = data.length := by
  intro vals
  induction vals with
  | nil => intro i0 data; rfl
  | cons v vs ih =>
    intro i0 data
    simp only [writeSlots]
    rw [ih]
    split
    · rename_i hle
      simp only [List.length_append, List.length_take, List.length_drop,
        u32LeBytes_length]
      omega
    · rfl

theorem writeSlots_take : ∀ (vals : List Nat) (i0 : Nat) (data : List Nat)
    (m : Nat), m ≤ i0 * 4 →
    (writeSlots data vals i0).take m = data.take m := by
  intro vals
  induction vals with
  | nil => intro i0 data m _; rfl
  | cons v vs ih =>
    intro i0 data m hm
    simp only [writeSlots]
    rw [ih (i0 + 1) _ m (by omega)]
    split
    · rename_i hle
      rw [List.take_append_eq_append_take, List.take_append_eq_append_take]
      simp only [List.length_take, u32LeBytes_length]
      have h1 : m - min (i0 * 4) data.length = 0 := by omega
      rw [h1]
      simp only [List.take_zero, List.take_take]
      have h2 : min m (i0 * 4) = m := by omega
      rw [h2]
      simp
      exact Or.inl (by omega)
    · rfl

theorem writeSlots_drop_oob : ∀ (vals : List Nat) (i0 : Nat) (data : List Nat)
    (n : Nat), data.length < n * 4 + 4 →
    (writeSlots data vals i0).drop (n * 4) = data.drop (n * 4) := by
  intro vals
  induction vals with
  | nil => intro i0 data n _; rfl
  | cons v vs ih =>
    intro i0 data n hn
    simp only [writeSlots]
    split
    · rename_i hle
      have hlen : (data.take (i0 * 4) ++ u32LeBytes v ++ data.drop (i0 * 4 + 4)).length
          = data.length := by
        simp only [List.length_append, List.length_take, List.length_drop,
          u32LeBytes_length]
        omega
      rw [ih (i0 + 1) _ n (by omega)]
      have hi0 : i0 * 4 + 4 ≤ n * 4 := by omega
      rw [List.drop_append_eq_append_drop, List.drop_append_eq_append_drop]
      simp only [List.length_take, u32LeBytes_length]
      have h1 : n * 4 - min (i0 * 4) data.length = n * 4 - i0 * 4 := by omega
      have h2 : List.drop (n * 4) (List.take (i0 * 4) data) = [] := by
        apply List.drop_eq_nil_of_le
        simp only [List.length_take]
        omega
      have h3 : List.drop (n * 4 - i0 * 4) (u32LeBytes v) = [] := by
        apply List.drop_eq_nil_of_le
        simp only [u32LeBytes_length]
        omega
      rw [h1, h2, h3]
      simp only [List.nil_append, u32LeBytes_length, List.drop_drop]
      simp only [List.length_append, List.length_take, u32LeBytes_length]
      congr 1
      omega
    · exact ih (i0 + 1) data n hn

theorem writeSlots_slot : ∀ (vals : List Nat) (k i0 : Nat) (data : List Nat)
    (hk : k < vals.length), (i0 + k) * 4 + 4 ≤ data.length →
    ((writeSlots data vals i0).drop ((i0 + k) * 4)).take 4 =
      u32LeBytes (vals.get ⟨k, hk⟩) := by
  intro vals
  induction vals with
  | nil => intro k i0 data hk; simp at hk
  | cons v vs ih =>
    intro k i0 data hk hin
    cases k with
    | zero =>
      simp only [Nat.add_zero] at hin ⊢
      simp only [writeSlots, if_pos hin]
      have htk := writeSlots_take vs (i0 + 1)
        (data.take (i0 * 4) ++ u32LeBytes v ++ data.drop (i0 * 4 + 4))
        (i0 * 4 + 4) (by omega)
      have hone : ((writeSlots (data.take (i0 * 4) ++ u32LeBytes v ++
          data.drop (i0 * 4 + 4)) vs (i0 + 1)).drop (i0 * 4)).take 4 =
          (((writeSlots (data.take (i0 * 4) ++ u32LeBytes v ++
            data.drop (i0 * 4 + 4)) vs (i0 + 1)).take (i0 * 4 + 4)).drop
            (i0 * 4)) := by
        rw [List.drop_take]
        congr 1
        omega
      rw [hone, htk]
      have hA : (data.take (i0 * 4)).length = i0 * 4 := by
        simp only [List.length_take]
        omega
      rw [List.take_append_eq_append_take, List.take_append_eq_append_take]
      rw [hA]
      have h1 : i0 * 4 + 4 - i0 * 4 = 4 := by omega
      rw [h1]
      have h2 : List.take (i0 * 4 + 4) (List.take (i0 * 4) data) =
          List.take (i0 * 4) data := by
        rw [List.take_take]
        congr 1
        omega
      rw [h2]
      have h3 : List.take 4 (u32LeBytes v) = u32LeBytes v := by
        apply List.take_of_length_le
        simp [u32LeBytes_length]
      rw [h3]
      have hAB : (List.take (i0 * 4) data ++ u32LeBytes v).length = i0 * 4 + 4 := by
        simp only [List.length_append, u32LeBytes_length]
        omega
      rw [hAB]
      simp only [Nat.sub_self, List.take_zero, List.append_nil]
      have hdrop : List.drop (i0 * 4) (List.take (i0 * 4) data ++ u32LeBytes v) =
          u32LeBytes v := by
        have hdl := List.drop_left (List.take (i0 * 4) data) (u32LeBytes v)
        rwa [hA] at hdl
      rw [hdrop]
      simp
    | succ k0 =>
      simp only [writeSlots]
      have hk0 : k0 < vs.length := by simpa using hk
      have hstep : (i0 + (k0 + 1)) = ((i0 + 1) + k0) := by omega
      split
      · rename_i hle
        have hlen : (data.take (i0 * 4) ++ u32LeBytes v ++
            data.drop (i0 * 4 + 4)).length = data.length := by
          simp only [List.length_append, List.length_take, List.length_drop,
            u32LeBytes_length]
          omega
        rw [hstep]
        exact ih k0 (i0 + 1) _ hk0 (by rw [hlen]; omega)
      · rw [hstep]
        exact ih k0 (i0 + 1) data hk0 (by omega)

/-! ### Concrete demonstration values -/

/-- The bytes of `b"BLENDER-v279"`. -/
def demoHeaderBytes : List Nat := [66, 76, 69, 78, 68, 69, 82, 45, 118, 50, 55, 57]

/-- The header those bytes parse to: 64-bit little-endian version 279. -/
def demoHeader64 : Header := ⟨blenderMagic, PointerSize.bits64, Endianness.little, 279⟩

/-- The bytes of `b"BLENDER-v+79"`: a version field with a leading plus
sign, which `parse::<u32>` accepts. -/
def plusHeaderBytes : List Nat := [66, 76, 69, 78, 68, 69, 82, 45, 118, 43, 55, 57]

/-- The header `b"BLENDER-v+79"` parses to. -/
def plusHeader : Header := ⟨blenderMagic, PointerSize.bits64, Endianness.little, 79⟩

/-- The empty struct catalog. -/
def emptyDna : Dna := ⟨[], []⟩

/-- A minimal container file: header, terminator tag, one catalog byte. -/
def demoFileBytes (c : Nat) : List Nat := demoHeaderBytes ++ dna1Code ++ [c]

/-- A library block with a 2-byte payload. -/
def demoBlockLI : Block :=
  ⟨[76, 73, 0, 0], 2, 16, 0, 1, 0, [9, 8]⟩

/-- A field name used by callers (the accessors ignore it). -/
def fieldLoc : String := "loc"

/-- A stand-in zstd decoder for the witness: returns the minimal
container for any input. -/
def demoZstdDec (_bytes : List Nat) : Except String (List Nat) :=
  .ok (demoFileBytes 1)

/-- A stand-in decoder that always fails (never reached in the witness). -/
def demoFailDec (_bytes : List Nat) : Except String (List Nat) :=
  .error msgIo

/-- An object block with an 8-byte zero payload. -/
def demoBlockOb : Block :=
  ⟨[79, 66, 0, 0], 8, 0, 0, 1, 0, [0, 0, 0, 0, 0, 0, 0, 0]⟩

/-- A stream whose single block declares a 100-byte payload but carries
only one byte after the prologue (64-bit header). -/
def truncStream : List Nat :=
  [84, 69, 0, 0, 100, 0, 0, 0, 0, 0, 0, 0, 0, 0, 0, 0, 0, 0, 0, 0, 0, 0, 0, 0, 5]

/-! ### Claim theorems -/

/-- C3: every call to `set_string_field` or `set_float_array_field` leaves
the payload byte length, the size field, the type code, the legacy
address, the catalog index and the element count unchanged; only payload
byte contents may change, and a payload never grows (its length is
preserved exactly). -/
theorem claim_c3_set_fields_frame (b : Block) (f1 f2 : String)
    (v vals : List Nat) :
    (b.set_string_field f1 v).data.length = b.data.length ∧
    (b.set_string_field f1 v).size = b.size ∧
    (b.set_string_field f1 v).code = b.code ∧
    (b.set_string_field f1 v).old_memory_address = b.old_memory_address ∧
    (b.set_string_field f1 v).sdna_index = b.sdna_index ∧
    (b.set_string_field f1 v).count = b.count ∧
    (b.set_float_array_field f2 vals).data.length = b.data.length ∧
    (b.set_float_array_field f2 vals).size = b.size ∧
    (b.set_float_array_field f2 vals).code = b.code ∧
    (b.set_float_array_field f2 vals).old_memory_address = b.old_memory_address ∧
    (b.set_float_array_field f2 vals).sdna_index = b.sdna_index ∧
    (b.set_float_array_field f2 vals).count = b.count := by
  refine ⟨?_, rfl, rfl, rfl, rfl, rfl, ?_, rfl, rfl, rfl, rfl, rfl⟩
  · simp only [Block.set_string_field]
    split <;>
      simp only [List.length_set, List.length_append, List.length_take,
        List.length_drop] <;>
      omega
  · exact writeSlots_length vals 0 b.data

/-- C10: the field accessors ignore their field-name argument entirely:
for any two field names the getters return the same result and the
setters leave the block in the same state. -/
theorem claim_c10_accessors_ignore_field_name (b : Block) (f1 f2 : String)
    (v vals : List Nat) (count : Nat) :
    b.get_string_field f1 = b.get_string_field f2 ∧
    b.get_float_array_field f1 count = b.get_float_array_field f2 count ∧
    b.set_string_field f1 v = b.set_string_field f2 v ∧
    b.set_float_array_field f1 vals = b.set_float_array_field f2 vals :=
  ⟨rfl, rfl, rfl, rfl⟩

/-- C8: for a slot inside the payload, `set_float_array_field` then
`get_float_array_field` returns exactly the value written (float values as
bit patterns); for a slot past the payload the getter returns `0.0` (bit
pattern 0) and the setter leaves the payload bytes at that slot
unchanged, silently. -/
theorem claim_c8_float_array_set_get (b : Block) (f1 f2 : String)
    (vals : List Nat) (count : Nat) (hv : ∀ x ∈ vals, x < 2 ^ 32) :
    (∀ i (hi : i < count) (hiv : i < vals.length),
      i * 4 + 4 ≤ b.data.length →
      ((b.set_float_array_field f1 vals).get_float_array_field f2 count)[i]? =
        some (vals.get ⟨i, hiv⟩)) ∧
    (∀ i, i < count → b.data.length < i * 4 + 4 →
      ((b.set_float_array_field f1 vals).get_float_array_field f2 count)[i]? =
        some 0) ∧
    (∀ i, b.data.length < i * 4 + 4 →
      ((b.set_float_array_field f1 vals).data.drop (i * 4)).take 4 =
        (b.data.drop (i * 4)).take 4) := by
  have hlen : (writeSlots b.data vals 0).length = b.data.length :=
    writeSlots_length vals 0 b.data
  refine ⟨?_, ?_, ?_⟩
  · intro i hi hiv hslot
    simp only [Block.get_float_array_field, Block.set_float_array_field,
      List.getElem?_map, List.getElem?_range hi, Option.map_some']
    rw [if_pos (by rw [hlen]; exact hslot)]
    have hs := writeSlots_slot vals i 0 b.data hiv (by omega)
    simp only [Nat.zero_add] at hs
    rw [hs, leVal_u32LeBytes,
      Nat.mod_eq_of_lt (hv _ (List.get_mem vals i hiv))]
  · intro i hi hslot
    simp only [Block.get_float_array_field, Block.set_float_array_field,
      List.getElem?_map, List.getElem?_range hi, Option.map_some']
    rw [if_neg (by rw [hlen]; omega)]
  · intro i hslot
    simp only [Block.set_float_array_field]
    exact congrArg (List.take 4) (writeSlots_drop_oob vals 0 b.data i (by omega))

/-- C8 witness: an 8-byte payload, two written values read back exactly at
slots 0 and 1, slot 2 reads `0.0` and is untouched by the setter. -/
theorem claim_c8_float_array_set_get_witness :
    ((∀ x ∈ [1065353216, 1073741824], x < 2 ^ 32) ∧
      ((demoBlockOb.set_float_array_field fieldLoc
        [1065353216, 1073741824]).get_float_array_field fieldLoc 3)[0]? =
        some 1065353216) ∧
    ((demoBlockOb.set_float_array_field fieldLoc
        [1065353216, 1073741824]).get_float_array_field fieldLoc 3)[2]? =
      some 0 ∧
    ((demoBlockOb.set_float_array_field fieldLoc
        [1065353216, 1073741824]).data.drop 8).take 4 =
      (demoBlockOb.data.drop 8).take 4 :=
  ⟨⟨by decide,
    (claim_c8_float_array_set_get demoBlockOb fieldLoc fieldLoc
      [1065353216, 1073741824] 3 (by decide)).1 0 (by decide) (by decide)
      (by decide)⟩,
   (claim_c8_float_array_set_get demoBlockOb fieldLoc fieldLoc
      [1065353216, 1073741824] 3 (by decide)).2.1 2 (by decide) (by decide),
   (claim_c8_float_array_set_get demoBlockOb fieldLoc fieldLoc
      [1065353216, 1073741824] 3 (by decide)).2.2 2 (by decide)⟩

theorem get_blocks_by_type_total (code : List Nat) :
    ∀ blocks : List Block, (∀ b ∈ blocks, b.code.length = 4) →
      code.length ≤ 4 → ∃ l, get_blocks_by_type blocks code = .ok l := by
  intro blocks
  induction blocks with
  | nil => exact fun _ _ => ⟨[], rfl⟩
  | cons b rest ih =>
    intro hcodes hle
    obtain ⟨l, hl⟩ := ih (fun x hx => hcodes x (List.mem_cons_of_mem b hx)) hle
    refine ⟨if b.code.take code.length = code then b :: l else l, ?_⟩
    simp only [get_blocks_by_type,
      if_pos (show code.length ≤ b.code.length by
        rw [hcodes b (List.mem_cons_self b rest)]; exact hle), hl]

/-- C9: type-prefix lookup is total only for prefixes of length at most 4:
on a nonempty directory, a prefix longer than 4 bytes panics on the
out-of-range slice `&code[..len]` (modelled as an error), while a prefix
of length 0 to 4 always returns a result. -/
theorem claim_c9_lookup_prefix_bound (blocks : List Block) (code : List Nat)
    (hcodes : ∀ b ∈ blocks, b.code.length = 4) :
    (blocks ≠ [] → 4 < code.length →
      get_blocks_by_type blocks code = .error msgSlice) ∧
    (code.length ≤ 4 → ∃ l, get_blocks_by_type blocks code = .ok l) := by
  constructor
  · intro hne hlong
    cases blocks with
    | nil => exact absurd rfl hne
    | cons b rest =>
      simp only [get_blocks_by_type,
        if_neg (show ¬ code.length ≤ b.code.length by
          rw [hcodes b (List.mem_cons_self b rest)]; omega)]
  · exact get_blocks_by_type_total code blocks hcodes

/-- C9 witness: a one-block directory, a 5-byte prefix panics, a 2-byte
prefix succeeds. -/
theorem claim_c9_lookup_prefix_bound_witness :
    (∀ b ∈ [demoBlockLI], b.code.length = 4) ∧
    get_blocks_by_type [demoBlockLI] [76, 73, 0, 0, 0] = .error msgSlice ∧
    ∃ l, get_blocks_by_type [demoBlockLI] [76, 73] = .ok l :=
  ⟨by decide,
   (claim_c9_lookup_prefix_bound [demoBlockLI] [76, 73, 0, 0, 0]
      (by decide)).1 (by decide) (by decide),
   (claim_c9_lookup_prefix_bound [demoBlockLI] [76, 73] (by decide)).2
      (by decide)⟩

/-- C4 counterexample: with two stray bytes left in the stream,
end-of-stream is reached in the middle of the 4-byte type-code read, not
exactly at its start, and the bytes are not the terminator tag, yet the
block codec still signals "no more blocks" rather than an error — a third
case beyond the two the claim allows. -/
theorem claim_c4_counterexample :
    Block.from_reader demoHeader64 [0, 0] 0 = .done ∧
    ([0, 0] : List Nat).length ≠ 0 ∧
    ([0, 0] : List Nat).take 4 ≠ dna1Code :=
  ⟨rfl, by decide, by decide⟩

/-- C4 (amended): parsing one block signals "no more blocks" exactly when
fewer than 4 bytes remain at the type-code read (end-of-stream inside or
at the start of that read, but never later in the record) or the 4 bytes
read equal the reserved terminator tag; and no block of a successfully
built directory carries the terminator tag. -/
theorem claim_c4_no_more_blocks (hd : Header) (s : List Nat) (pos : Nat) :
    (Block.from_reader hd s pos = .done ↔
      s.length < 4 ∨ s.take 4 = dna1Code) ∧
    (∀ bs, parseBlocks hd s pos = .ok bs → ∀ b ∈ bs, b.code ≠ dna1Code) :=
  ⟨from_reader_done_iff hd s pos,
   fun bs h b hb => (parseBlocksF_ok_inv hd _ s pos bs h b hb).2⟩

/-- C4 witness: a stream holding just the terminator tag and a catalog
byte yields an empty directory; the theorem instance confirms no block of
it carries the terminator tag. -/
theorem claim_c4_no_more_blocks_witness :
    parseBlocks demoHeader64 [68, 78, 65, 49, 7] 0 = .ok [] ∧
    (∀ b ∈ ([] : List Block), b.code ≠ dna1Code) :=
  ⟨rfl,
   (claim_c4_no_more_blocks demoHeader64 [68, 78, 65, 49, 7] 0).2 [] rfl⟩

/-- C6: a stream whose first block declares a payload larger than the
bytes remaining after its fixed prologue makes directory construction
fail with a hard error; and a successfully built directory never contains
a block whose payload is shorter than its declared size. -/
theorem claim_c6_truncated_fails (hd : Header) :
    (∀ s pos, prologueLen hd ≤ s.length → s.take 4 ≠ dna1Code →
      s.length - prologueLen hd < declaredSize hd s →
      parseBlocks hd s pos = .error msgTruncated) ∧
    (∀ s pos bs, parseBlocks hd s pos = .ok bs →
      ∀ b ∈ bs, b.data.length = b.size) :=
  ⟨fun s pos h1 h2 h3 => parseBlocks_truncated hd s pos h1 h2 h3,
   fun s pos bs h b hb => (parseBlocksF_ok_inv hd _ s pos bs h b hb).1⟩

/-- C6 witness: a block declaring 100 payload bytes with only one present
fails hard. -/
theorem claim_c6_truncated_fails_witness :
    prologueLen demoHeader64 ≤ truncStream.length ∧
    truncStream.take 4 ≠ dna1Code ∧
    truncStream.length - prologueLen demoHeader64 <
      declaredSize demoHeader64 truncStream ∧
    parseBlocks demoHeader64 truncStream 0 = .error msgTruncated :=
  ⟨by decide, by decide, by decide,
   (claim_c6_truncated_fails demoHeader64).1 truncStream 0 (by decide)
     (by decide) (by decide)⟩

/-- C2: for every byte stream consisting of well-formed blocks (none
carrying the terminator tag), under any of the four pointer-width and
endianness header variants, parsing the stream into a directory and
serializing every parsed block in order reproduces the original byte
stream exactly. -/
theorem claim_c2_parse_serialize (hd : Header) (bs : List Block) (pos : Nat)
    (hwf : ∀ b ∈ bs, wfBlock b) :
    ∃ bs', parseBlocks hd (serializeBlocks hd bs) pos = .ok bs' ∧
      serializeBlocks hd bs' = serializeBlocks hd bs :=
  parseBlocks_serialize hd bs pos hwf

/-- C2 witness: a one-block stream round-trips under the 64-bit
little-endian header. -/
theorem claim_c2_parse_serialize_witness :
    (∀ b ∈ [demoBlockLI], wfBlock b) ∧
    ∃ bs', parseBlocks demoHeader64 (serializeBlocks demoHeader64 [demoBlockLI]) 0 =
        .ok bs' ∧
      serializeBlocks demoHeader64 bs' = serializeBlocks demoHeader64 [demoBlockLI] :=
  ⟨by decide, claim_c2_parse_serialize demoHeader64 [demoBlockLI] 0 (by decide)⟩

/-- C5 counterexample: the 12 bytes of `BLENDER-v+79` parse successfully
(Rust's `parse::<u32>` accepts a leading plus sign), but serializing the
parsed header yields `BLENDER-v079`, not the original bytes. -/
theorem claim_c5_counterexample :
    Header.from_reader plusHeaderBytes = .ok (plusHeader, []) ∧
    Header.write_to_writer plusHeader ≠ plusHeaderBytes :=
  ⟨rfl, by decide⟩

/-- C5 (amended): for every 12-byte sequence that the header codec parses
successfully and whose three version bytes are all ASCII digits,
serializing the parsed header yields exactly the original 12 bytes. -/
theorem claim_c5_header_roundtrip (s : List Nat) (hd : Header)
    (rest : List Nat) (hlen : s.length = 12)
    (hpar : Header.from_reader s = .ok (hd, rest))
    (hdig : ∀ x ∈ s.drop 9, isAsciiDigit x) :
    Header.write_to_writer hd = s :=
  (header_roundtrip_digits s hd rest hlen hpar hdig).1

/-- C5 witness: `BLENDER-v279` round-trips. -/
theorem claim_c5_header_roundtrip_witness :
    demoHeaderBytes.length = 12 ∧
    Header.from_reader demoHeaderBytes = .ok (demoHeader64, []) ∧
    (∀ x ∈ demoHeaderBytes.drop 9, isAsciiDigit x) ∧
    Header.write_to_writer demoHeader64 = demoHeaderBytes :=
  ⟨by decide, rfl, by decide,
   claim_c5_header_roundtrip demoHeaderBytes demoHeader64 [] (by decide) rfl
     (by decide)⟩

/-- C7: a zstd-compressed copy of a well-formed uncompressed container
file (first four bytes `28 B5 2F FD`, decoding to the original bytes)
opens to exactly the same header, block directory and catalog as the
uncompressed original. -/
theorem claim_c7_zstd_open
    (zlibDec zstdDec gzDec : List Nat → Except String (List Nat))
    (comp u : List Nat) (hd : Header) (blocks : List Block) (dna : Dna)
    (hmagic : comp.take 4 = [40, 181, 47, 253])
    (hdec : zstdDec comp = .ok u)
    (humagic : u.take 7 = blenderMagic)
    (hopen : openContainer zlibDec zstdDec gzDec u = .ok (hd, blocks, dna)) :
    openContainer zlibDec zstdDec gzDec comp = .ok (hd, blocks, dna) := by
  have hclen : 4 ≤ comp.length := by
    have hl := congrArg List.length hmagic
    simp at hl
    omega
  have hulen : 7 ≤ u.length := by
    have hl := congrArg List.length humagic
    simp [blenderMagic] at hl
    omega
  have hc2 : comp.take 2 = [40, 181] := by
    have ht : comp.take 2 = (comp.take 4).take 2 := by
      rw [List.take_take]
      norm_num
    rw [ht, hmagic]
    decide
  have hu2 : u.take 2 = [66, 76] := by
    have ht : u.take 2 = (u.take 7).take 2 := by
      rw [List.take_take]
      norm_num
    rw [ht, humagic]
    decide
  have hu4 : u.take 4 = [66, 76, 69, 78] := by
    have ht : u.take 4 = (u.take 7).take 4 := by
      rw [List.take_take]
      norm_num
    rw [ht, humagic]
    decide
  have hdc : decompress_if_needed zlibDec zstdDec gzDec comp = zstdDec comp := by
    unfold decompress_if_needed
    rw [if_neg (by omega), if_neg (by simp [hc2]), if_pos hmagic]
  have hdu : decompress_if_needed zlibDec zstdDec gzDec u = .ok u := by
    unfold decompress_if_needed
    rw [if_neg (by omega), if_neg (by simp [hu2]), if_neg (by simp [hu4]),
      if_neg (by simp [hu4])]
  simp only [openContainer, hdu] at hopen
  simp only [openContainer, hdc, hdec]
  exact hopen

/-- C7 witness: a concrete zstd decoder mapping a tagged file to the
minimal container; opening the compressed copy equals opening the
original. -/
theorem claim_c7_zstd_open_witness :
    ([40, 181, 47, 253, 9] : List Nat).take 4 = [40, 181, 47, 253] ∧
    demoZstdDec [40, 181, 47, 253, 9] = .ok (demoFileBytes 1) ∧
    (demoFileBytes 1).take 7 = blenderMagic ∧
    openContainer demoFailDec demoZstdDec demoFailDec (demoFileBytes 1) =
      .ok (demoHeader64, [], emptyDna) ∧
    openContainer demoFailDec demoZstdDec demoFailDec [40, 181, 47, 253, 9] =
      .ok (demoHeader64, [], emptyDna) :=
  ⟨by decide, rfl, by decide, rfl,
   claim_c7_zstd_open demoFailDec demoZstdDec demoFailDec
     [40, 181, 47, 253, 9] (demoFileBytes 1) demoHeader64 [] emptyDna
     (by decide) rfl (by decide) rfl⟩

/-- C1: `save` on a writable container emits, in order, the serialized
header, every block in directory order, then the catalog serializer's
output — but the catalog bytes loaded at open are NOT re-emitted: the
catalog parser (`Dna::from_reader`) ignores its input and returns an
empty catalog, so two files differing only in the bytes after the
terminator tag open to identical states and save identically, whatever
the catalog serializer does with the (always empty) `Dna` value. -/
theorem claim_c1_save_order_and_catalog :
    ∀ dnaSer : Dna → List Nat,
      (∀ (hd : Header) (blocks : List Block) (dna : Dna),
        BlendFile.save dnaSer hd blocks dna true =
          .ok (Header.write_to_writer hd ++ serializeBlocks hd blocks ++
            dnaSer dna)) ∧
      parseContainer (demoFileBytes 1) = .ok (demoHeader64, [], emptyDna) ∧
      parseContainer (demoFileBytes 2) = .ok (demoHeader64, [], emptyDna) ∧
      demoFileBytes 1 ≠ demoFileBytes 2 ∧
      BlendFile.save dnaSer demoHeader64 [] emptyDna true =
        .ok (Header.write_to_writer demoHeader64 ++ dnaSer emptyDna) := by
  intro dnaSer
  refine ⟨fun hd blocks dna => rfl, rfl, rfl, by decide, ?_⟩
  simp [BlendFile.save]

end Rbat
